import Mathlib

/-!
Verification development for the static-dependency decision engine of this
repository: the call-graph parser and reachability solver of
`src/lang-graph/slicer.py`, and the source-function locator and removal
operation of `src/lang-graph/app.py`.

Texts are modelled as `List Char` (Python `str`); function names as `String`.
Python dictionaries mapping names to sets of names are modelled as association
lists `List (String × List String)` whose value lists carry set semantics
(membership is what matters; `dAdd` never duplicates an element).
Character classes of the Python regexes (`\s`, `\w`, ...) are modelled over
their ASCII meaning, which is the only range exercised by the C-like inputs
this program processes.
-/

/-- Character constants written via code points so that the source file stays
free of brace and quote literals. -/
def lbrace : Char := Char.ofNat 123

/-- Closing brace character. -/
def rbrace : Char := Char.ofNat 125

/-- Single-quote (apostrophe) character. -/
def squote : Char := Char.ofNat 39

/-- Double-quote character. -/
def dquote : Char := Char.ofNat 34

/-- Backslash character. -/
def bslash : Char := Char.ofNat 92

/-- Single-character strings used to build concrete test inputs. -/
def lbS : String := String.mk [lbrace]

/-- Closing-brace string. -/
def rbS : String := String.mk [rbrace]

/-- Single-quote string. -/
def sqS : String := String.mk [squote]

/-- Double-quote string. -/
def dqS : String := String.mk [dquote]

/-- Backslash string. -/
def bsS : String := String.mk [bslash]

/-- ASCII whitespace, the meaning of the regex class `\s` and of
`str.isspace` and `str.strip` on the inputs in scope. -/
def pyWs (c : Char) : Bool :=
  c = ' ' || c = '\t' || c = '\n' || c = '\x0d' || c = '\x0b' || c = '\x0c'

/-- ASCII word characters: the regex class `\w` and the sides of `\b`. -/
def isWordChar (c : Char) : Bool :=
  (('a' ≤ c && c ≤ 'z') || ('A' ≤ c && c ≤ 'Z') || ('0' ≤ c && c ≤ '9') || c = '_')

/-- Case-insensitive prefix test, the effect of `re.IGNORECASE` on a literal. -/
def ciIsPrefixOf : List Char → List Char → Bool
  | [], _ => true
  | _ :: _, [] => false
  | p :: ps, c :: cs => (p.toLower = c.toLower) && ciIsPrefixOf ps cs

/-- Python `str.splitlines` restricted to the terminators `\n`, `\r\n`
and `\r` (the ones occurring in the call-graph dumps): a trailing
terminator produces no extra empty line. -/
def splitlinesGo : List Char → List Char → List (List Char)
  | [], acc => if acc.isEmpty then [] else [acc.reverse]
  | '\n' :: rest, acc => acc.reverse :: splitlinesGo rest []
  | '\x0d' :: '\n' :: rest, acc => acc.reverse :: splitlinesGo rest []
  | '\x0d' :: rest, acc => acc.reverse :: splitlinesGo rest []
  | c :: rest, acc => splitlinesGo rest (c :: acc)

/-- Split a text into its lines. -/
def splitlines (cs : List Char) : List (List Char) := splitlinesGo cs []

/-- Literal of `NODE_RX`: a node header line starts with this text
(case-sensitively, anchored at line start). -/
def nodeHeaderLit : List Char := ("Call graph node for function:").data

/-- Matcher for `NODE_RX` applied to one line: the anchored literal, `\s*`,
then a quoted name of at least one non-quote character.  Returns the
captured name. -/
def nodeCapture (line : List Char) : Option String :=
  if nodeHeaderLit.isPrefixOf line then
    let r1 := (line.drop nodeHeaderLit.length).dropWhile pyWs
    match r1 with
    | q :: r2 =>
      if q = squote then
        let nm := r2.takeWhile (fun c => c ≠ squote)
        if nm.isEmpty then none
        else if nm.length < r2.length then some (String.mk nm) else none
      else none
    | [] => none
  else none

/-- Literal keyword of `CALL_RX`, lowercased because the pattern carries
`re.IGNORECASE` (the captured name itself is taken verbatim). -/
def callsFunctionLit : List Char := ("calls function ").data

/-- Match the tail `calls function '<name>'` of `CALL_RX` case-insensitively
on the keyword, returning the captured name verbatim. -/
def callNameCapture (cs : List Char) : Option String :=
  if ciIsPrefixOf callsFunctionLit cs then
    match cs.drop callsFunctionLit.length with
    | q :: r2 =>
      if q = squote then
        let nm := r2.takeWhile (fun c => c ≠ squote)
        if nm.isEmpty then none
        else if nm.length < r2.length then some (String.mk nm) else none
      else none
    | [] => none
  else none

/-- Match the optional `CS<[^>]*>\s+` group of `CALL_RX` at the start of
`cs`, returning the remainder on success. -/
def csGroupDrop (cs : List Char) : Option (List Char) :=
  if ciIsPrefixOf ("cs<").data cs then
    let r1 := cs.drop 2
    match r1 with
    | _ :: _ =>
      let inner := (r1.drop 1).takeWhile (fun c => c ≠ '>')
      let r2 := (r1.drop 1).drop inner.length
      match r2 with
      | gt :: r3 =>
        if gt = '>' then
          let ws := r3.takeWhile pyWs
          if ws.isEmpty then none else some (r3.drop ws.length)
        else none
      | [] => none
    | [] => none
  else none

/-- Matcher for `CALL_RX` applied to one line: leading `\s*`, an optional
`CS<...>` tag (tried first, exactly as the regex alternation does), then
the quoted callee name. -/
def callCapture (line : List Char) : Option String :=
  let r := line.dropWhile pyWs
  match csGroupDrop r with
  | some r' => (callNameCapture r').orElse (fun _ => callNameCapture r)
  | none => callNameCapture r

/-- Python dict from names to sets of names, as an association list. -/
abbrev FinMap := List (String × List String)

/-- Dictionary read with default empty set: `m.get(k, set())`. -/
def dget (m : FinMap) (k : String) : List String :=
  match m with
  | [] => []
  | (k', v) :: rest => if k' = k then v else dget rest k

/-- The effect of `m.setdefault(k, set()).add(v)` (and of `m[k].add(v)` when
`k` is present): add `v` to the set stored under `k`. -/
def dAdd (m : FinMap) (k v : String) : FinMap :=
  match m with
  | [] => [(k, [v])]
  | (k', vs) :: rest =>
    if k' = k then (k', if v ∈ vs then vs else vs ++ [v]) :: rest
    else (k', vs) :: dAdd rest k v

/-- The effect of `m.setdefault(k, set())` alone: ensure the key exists. -/
def dSetdefault (m : FinMap) (k : String) : FinMap :=
  match m with
  | [] => [(k, [])]
  | (k', vs) :: rest =>
    if k' = k then (k', vs) :: rest else (k', vs) :: dSetdefault rest k

/-- Python truthiness of the `current` variable: a non-None, non-empty name. -/
def pyTruthy : Option String → Bool
  | none => false
  | some s => !s.isEmpty

/-- Line loop of `parse_callgraph_text`: headers set the current node,
call lines record `current` as a caller of the callee. -/
def parseCallgraphGo : List (List Char) → Option String → FinMap → FinMap
  | [], _, m => m
  | line :: rest, cur, m =>
    match nodeCapture line with
    | some nm => parseCallgraphGo rest (some nm) m
    | none =>
      if pyTruthy cur then
        match callCapture line, cur with
        | some callee, some c => parseCallgraphGo rest cur (dAdd m callee c)
        | _, _ => parseCallgraphGo rest cur m
      else parseCallgraphGo rest cur m

/-- The reverse map of `parse_callgraph_text`: callee to set of callers. -/
def parse_callgraph_text (text : List Char) : FinMap :=
  parseCallgraphGo (splitlines text) none []

/-- Line loop of `parse_callees_map`: headers also initialise an empty
entry for the node, call lines record the callee under `current`. -/
def parseCalleesGo : List (List Char) → Option String → FinMap → FinMap
  | [], _, m => m
  | line :: rest, cur, m =>
    match nodeCapture line with
    | some nm => parseCalleesGo rest (some nm) (dSetdefault m nm)
    | none =>
      if pyTruthy cur then
        match callCapture line, cur with
        | some callee, some c => parseCalleesGo rest cur (dAdd m c callee)
        | _, _ => parseCalleesGo rest cur m
      else parseCalleesGo rest cur m

/-- The forward map of `parse_callees_map`: caller to set of callees. -/
def parse_callees_map (text : List Char) : FinMap :=
  parseCalleesGo (splitlines text) none []

/-- All names occurring in a map, keys and values alike: the finite universe
inside which the work-list traversals move. -/
def univNames (m : FinMap) : Finset String :=
  m.foldr (fun kv acc => insert kv.1 (kv.2.foldr insert acc)) ∅

/-- Membership in a foldr of inserts. -/
theorem mem_foldr_insert {x : String} (vs : List String) (acc : Finset String) :
    x ∈ vs.foldr insert acc ↔ x ∈ vs ∨ x ∈ acc := by
  induction vs with
  | nil => simp
  | cons v vs ih => simp [ih, or_assoc]

/-- Every value stored in the map belongs to its universe. -/
theorem mem_univNames_of_mem_dget {m : FinMap} {k x : String}
    (h : x ∈ dget m k) : x ∈ univNames m := by
  induction m with
  | nil => simp [dget] at h
  | cons kv rest ih =>
    obtain ⟨k', vs⟩ := kv
    simp only [dget] at h
    simp only [univNames, List.foldr_cons, Finset.mem_insert, mem_foldr_insert]
    by_cases hk : k' = k
    · simp [hk] at h
      exact Or.inr (Or.inl h)
    · simp [hk] at h
      have := ih h
      simp only [univNames] at this
      exact Or.inr (Or.inr this)

/-- Work-list loop of `get_transitive_callers`: pop a node, skip it if seen,
otherwise mark it and push its unseen callers.  The Python list is a stack
whose top is modelled by the list head; Python set iteration order is
unspecified and the resulting visited set does not depend on it. -/
def tcLoop (m : FinMap) (seen : Finset String) (work : List String) :
    Finset String :=
  match work with
  | [] => seen
  | who :: rest =>
    if h : who ∈ seen then tcLoop m seen rest
    else
      tcLoop m (insert who seen)
        (((dget m who).filter (fun a => !decide (a ∈ insert who seen))) ++ rest)
termination_by (((univNames m ∪ work.toFinset) \ seen).card, work.length)
decreasing_by
  · simp only [Prod.lex_iff]
    right
    constructor
    · congr 1
      ext x
      simp only [Finset.mem_sdiff, Finset.mem_union, List.mem_toFinset,
        List.toFinset_cons, Finset.mem_insert]
      constructor
      · rintro ⟨hx, hns⟩; exact ⟨hx.imp id Or.inr, hns⟩
      · rintro ⟨hx, hns⟩
        refine ⟨?_, hns⟩
        rcases hx with hu | (rfl | hr)
        · exact Or.inl hu
        · exact absurd h hns
        · exact Or.inr hr
    · simp
  · simp only [Prod.lex_iff]
    left
    apply Finset.card_lt_card
    constructor
    · intro x hx
      simp only [Finset.mem_sdiff, Finset.mem_union, List.mem_toFinset,
        List.mem_append, List.mem_filter, Finset.mem_insert] at hx ⊢
      obtain ⟨hx1, hx2⟩ := hx
      refine ⟨?_, fun hs => hx2 (Or.inr hs)⟩
      rcases hx1 with hu | (⟨hd, _⟩ | hr)
      · exact Or.inl hu
      · exact Or.inl (mem_univNames_of_mem_dget hd)
      · exact Or.inr (List.mem_cons_of_mem _ hr)
    · intro hsub
      have hwho : who ∈ (univNames m ∪ (who :: rest).toFinset) \ seen := by
        simp [h]
      have := hsub hwho
      simp at this

/-- Transitive callers of `target` over the reverse map: the work list starts
from the direct callers and the final visited set is returned sorted
(`sorted(seen)`). -/
def get_transitive_callers (m : FinMap) (target : String) : List String :=
  (tcLoop m ∅ (dget m target)).sort (· ≤ ·)

/-- Work-list loop of `get_transitive_callees`: items carry a hop depth;
an item is skipped when already seen or when its depth exceeds the bound.
As in `tcLoop`, the Python stack top is the list head and the visited-set
result does not depend on the unspecified set iteration order. -/
def tcdLoop (m : FinMap) (maxd : Nat) (seen : Finset String)
    (work : List (String × Nat)) : Finset String :=
  match work with
  | [] => seen
  | (who, depth) :: rest =>
    if h : who ∈ seen ∨ depth > maxd then tcdLoop m maxd seen rest
    else
      tcdLoop m maxd (insert who seen)
        ((((dget m who).filter
            (fun c => !decide (c ∈ insert who seen))).map
              (fun c => (c, depth + 1))) ++ rest)
termination_by
  (((univNames m ∪ (work.map Prod.fst).toFinset) \ seen).card, work.length)
decreasing_by
  · simp only [Prod.lex_iff]
    have hsub :
        (univNames m ∪ (rest.map Prod.fst).toFinset) \ seen ⊆
          (univNames m ∪ (((who, depth) :: rest).map Prod.fst).toFinset) \ seen := by
      intro x hx
      simp only [Finset.mem_sdiff, Finset.mem_union, List.mem_toFinset,
        List.map_cons, List.toFinset_cons, Finset.mem_insert] at hx ⊢
      exact ⟨hx.1.imp id Or.inr, hx.2⟩
    rcases lt_or_eq_of_le (Finset.card_le_card hsub) with hlt | heq
    · exact Or.inl hlt
    · exact Or.inr ⟨heq, by simp⟩
  · simp only [Prod.lex_iff]
    left
    push_neg at h
    apply Finset.card_lt_card
    constructor
    · intro x hx
      simp only [Finset.mem_sdiff, Finset.mem_union, List.mem_toFinset,
        List.map_append, List.map_map, List.mem_append, List.mem_map,
        List.mem_filter, List.map_cons, List.toFinset_cons,
        Finset.mem_insert] at hx ⊢
      obtain ⟨hx1, hx2⟩ := hx
      refine ⟨?_, fun hs => hx2 (Or.inr hs)⟩
      rcases hx1 with hu | (⟨c, ⟨hc, _⟩, hcx⟩ | hr)
      · exact Or.inl hu
      · cases hcx
        exact Or.inl (mem_univNames_of_mem_dget hc)
      · exact Or.inr (Or.inr hr)
    · intro hsub
      have hwho :
          who ∈ (univNames m ∪ (((who, depth) :: rest).map Prod.fst).toFinset)
              \ seen := by
        simp [h.1]
      have := hsub hwho
      simp at this

/-- Transitive callees of `target` over the forward map, depth-bounded; the
work list starts from the direct callees at depth one. -/
def get_transitive_callees (m : FinMap) (target : String) (maxd : Nat) :
    List String :=
  (tcdLoop m maxd ∅ ((dget m target).map (fun c => (c, 1)))).sort (· ≤ ·)

/-- Header literal of the `parse_function_metadata` pattern, lowercased
because that pattern carries `re.IGNORECASE`. -/
def metadataHeaderLit : List Char := ("call graph node for function:").data

/-- Literal of `USES_RX`, matched case-insensitively. -/
def usesKeyLit : List Char := ("#uses=").data

/-- Decimal value of a digit run, the effect of `int` on the capture. -/
def digitsToNat (ds : List Char) : Nat :=
  ds.foldl (fun acc c => acc * 10 + (c.toNat - 48)) 0

/-- Attempt the `parse_function_metadata` node pattern at the start of the
suffix `s`: case-insensitive header literal, `\s*` (which may cross
newlines), the quoted target matched case-insensitively, then the rest of
the line.  Returns the matched text (`match.group(0)`). -/
def metaNodeLineAt (tgt : List Char) (s : List Char) : Option (List Char) :=
  if ciIsPrefixOf metadataHeaderLit s then
    let r1 := s.drop metadataHeaderLit.length
    let ws := r1.takeWhile pyWs
    let r2 := r1.drop ws.length
    match r2 with
    | q1 :: r3 =>
      if q1 = squote && ciIsPrefixOf tgt r3 then
        let r4 := r3.drop tgt.length
        match r4 with
        | q2 :: r5 =>
          if q2 = squote then
            let tail := r5.takeWhile (fun c => c ≠ '\n')
            some (s.take
              (metadataHeaderLit.length + ws.length + 1 + tgt.length + 1 +
                tail.length))
          else none
        | [] => none
      else none
    | [] => none
  else none

/-- Leftmost search of the node pattern over all start positions. -/
def metaSearch (tgt : List Char) : List Char → Option (List Char)
  | [] => none
  | s@(_ :: rest) =>
    match metaNodeLineAt tgt s with
    | some nl => some nl
    | none => metaSearch tgt rest

/-- Leftmost search of `USES_RX` inside the node line: the literal
`#uses=` (case-insensitive) followed by at least one digit. -/
def usesSearch : List Char → Nat
  | [] => 0
  | s@(_ :: rest) =>
    if ciIsPrefixOf usesKeyLit s then
      let ds := (s.drop usesKeyLit.length).takeWhile Char.isDigit
      if ds.isEmpty then usesSearch rest else digitsToNat ds
    else usesSearch rest

/-- The `uses_count` field computed by `parse_function_metadata`: zero when
the node pattern does not match anywhere. -/
def parse_function_metadata_uses (text : List Char) (target : String) : Nat :=
  match metaSearch target.data text with
  | some nl => usesSearch nl
  | none => 0

/-- Context slice `c_text[max(0,a):min(n,b)]` with newlines replaced by
spaces; `Nat` subtraction and `take` clamping realise the `max`/`min`. -/
def snippetAt (cs : List Char) (a b : Nat) : List Char :=
  ((cs.drop a).take (b - a)).map (fun c => if c = '\n' then ' ' else c)

/-- Word boundary `\b` sitting after the last character of the matched text,
facing `next`. -/
def wordBoundaryAfter (lastChar : Char) (next : Option Char) : Bool :=
  match next with
  | none => isWordChar lastChar
  | some c => isWordChar lastChar != isWordChar c

/-- Attempt the pattern of `addr_pattern`, an ampersand then `\s*` then the
target then `\b`, at the start of the suffix; returns the match length. -/
def matchAddrLen (tgt : List Char) (s : List Char) : Option Nat :=
  match s with
  | [] => none
  | c :: rest =>
    if c = '&' then
      let ws := rest.takeWhile pyWs
      let r2 := rest.drop ws.length
      if tgt.isPrefixOf r2 then
        if wordBoundaryAfter ((('&' :: ws) ++ tgt).getLast (by simp))
            (r2.drop tgt.length).head? then
          some (1 + ws.length + tgt.length)
        else none
      else none
    else none

/-- Non-overlapping left-to-right matches of `addr_pattern` (`finditer`):
the fuel, one unit per loop step, is ample because every step advances the
position by at least one. -/
def addrFindGo (tgt cs : List Char) : Nat → Nat → List (Nat × Nat)
  | 0, _ => []
  | fuel + 1, p =>
    match matchAddrLen tgt (cs.drop p) with
    | some len => (p, p + len) :: addrFindGo tgt cs fuel (p + len)
    | none => if p < cs.length then addrFindGo tgt cs fuel (p + 1) else []

/-- All `&target` matches with their spans. -/
def addrMatches (cs tgt : List Char) : List (Nat × Nat) :=
  addrFindGo tgt cs (cs.length + 1) 0

/-- Lowercased literal of the first SQLite registration pattern. -/
def sqliteKey1 : List Char := ("sqlite3_create_function").data

/-- Lowercased literal of the second SQLite registration pattern. -/
def sqliteKey2 : List Char := ("sqlite3_create_function_v2").data

/-- Consume `n` comma-terminated argument segments, each the deterministic
residue of `[^,]+,` (with its preceding `\s*` absorbed, since whitespace
is itself matched by `[^,]`): at least one non-comma character up to the
next comma.  Returns the total length consumed. -/
def commaSegs : Nat → List Char → Option Nat
  | 0, _ => some 0
  | n + 1, s =>
    let seg := s.takeWhile (fun c => c ≠ ',')
    if seg.isEmpty then none
    else
      match s.drop seg.length with
      | c :: r2 =>
        if c = ',' then (commaSegs n r2).map (fun k => seg.length + 1 + k)
        else none
      | [] => none

/-- Attempt a SQLite registration pattern at the start of the suffix:
the key literal (case-insensitive), `[^(]*\(`, five comma-terminated
arguments, then `\s*(\w+)`.  All quantifiers here are deterministic
because each character class excludes its terminator.  Returns the match
length and the captured group. -/
def sqliteMatchLen (keyLit : List Char) (s : List Char) :
    Option (Nat × List Char) :=
  if ciIsPrefixOf keyLit s then
    let r1 := s.drop keyLit.length
    let pre := r1.takeWhile (fun c => c ≠ '(')
    match r1.drop pre.length with
    | c :: r3 =>
      if c = '(' then
        match commaSegs 5 r3 with
        | some k =>
          let r4 := r3.drop k
          let ws := r4.takeWhile pyWs
          let g := (r4.drop ws.length).takeWhile isWordChar
          if g.isEmpty then none
          else
            some (keyLit.length + pre.length + 1 + k + ws.length + g.length, g)
        | none => none
      else none
    | [] => none
  else none

/-- Non-overlapping matches of one SQLite registration pattern. -/
def sqliteFindGo (keyLit cs : List Char) :
    Nat → Nat → List (Nat × Nat × List Char)
  | 0, _ => []
  | fuel + 1, p =>
    match sqliteMatchLen keyLit (cs.drop p) with
    | some (len, g) => (p, p + len, g) :: sqliteFindGo keyLit cs fuel (p + len)
    | none => if p < cs.length then sqliteFindGo keyLit cs fuel (p + 1) else []

/-- All matches of one SQLite registration pattern with spans and groups. -/
def sqliteMatches (keyLit cs : List Char) : List (Nat × Nat × List Char) :=
  sqliteFindGo keyLit cs (cs.length + 1) 0

/-- Lookbehind class `[a-zA-Z_]` of `bare_name_pattern`. -/
def bareBefore (c : Char) : Bool :=
  (('a' ≤ c && c ≤ 'z') || ('A' ≤ c && c ≤ 'Z') || c = '_')

/-- Lookahead class `[a-zA-Z_0-9(]` of `bare_name_pattern`. -/
def bareAfter (c : Char) : Bool :=
  bareBefore c || ('0' ≤ c && c ≤ '9') || c = '('

/-- Non-overlapping matches of `bare_name_pattern`: the target name neither
preceded by a letter or underscore nor followed by a word character or an
opening parenthesis. -/
def bareFindGo (tgt cs : List Char) : Nat → Nat → List (Nat × Nat)
  | 0, _ => []
  | fuel + 1, p =>
    if p ≤ cs.length then
      let okBefore :=
        match p with
        | 0 => true
        | q + 1 =>
          match cs[q]? with
          | some c => !bareBefore c
          | none => true
      let okAfter :=
        match (cs.drop (p + tgt.length)).head? with
        | some c => !bareAfter c
        | none => true
      if okBefore && tgt.isPrefixOf (cs.drop p) && okAfter then
        (p, p + tgt.length) :: bareFindGo tgt cs fuel (p + tgt.length)
      else bareFindGo tgt cs fuel (p + 1)
    else []

/-- All bare-name matches; guarded against an empty target, for which the
Python zero-width pattern is never used by the program. -/
def bareMatches (cs tgt : List Char) : List (Nat × Nat) :=
  if tgt.isEmpty then [] else bareFindGo tgt cs (cs.length + 1) 0

/-- Bare-name loop of `check_function_pointer_usage`: for each match whose
following non-space character exists and is not an opening parenthesis,
record the position (Python records the formatted string
`Bare reference at position pos`) and, only while fewer than five snippets
have been captured in total, a context snippet. -/
def barePhaseGo (cs : List Char) :
    List (Nat × Nat) → List Nat → List (List Char) →
      List Nat × List (List Char)
  | [], sus, snips => (sus, snips)
  | (s, e) :: rest, sus, snips =>
    if e < cs.length then
      match ((cs.drop e).dropWhile pyWs).head? with
      | some c =>
        if c ≠ '(' then
          barePhaseGo cs rest (sus ++ [s])
            (if snips.length < 5 then snips ++ [snippetAt cs (s - 80) (s + 80)]
             else snips)
        else barePhaseGo cs rest sus snips
      | none => barePhaseGo cs rest sus snips
    else barePhaseGo cs rest sus snips

/-- Result record of `check_function_pointer_usage`; suspicious patterns are
recorded by match position. -/
structure PointerUsage where
  has_address_taken : Bool
  function_registration : List String
  suspicious_patterns : List Nat
  context_snippets : List (List Char)
deriving Repr, DecidableEq

/-- SQLite registration matches of one pattern whose captured group equals
the target (the comparison `match.group(1) == target` is case-sensitive). -/
def regMatchesOf (keyLit cs tgt : List Char) : List (Nat × Nat × List Char) :=
  (sqliteMatches keyLit cs).filter (fun t => t.2.2 = tgt)

/-- The pointer-usage scanner: address-of matches (each with a snippet),
SQLite registration matches for the target (each with a snippet), then the
bare-name loop whose snippets alone are capped at five in total. -/
def check_function_pointer_usage (cs tgt : List Char) : PointerUsage :=
  let addrs := addrMatches cs tgt
  let addrSnips := addrs.map (fun pr => snippetAt cs (pr.1 - 100) (pr.2 + 100))
  let regs := regMatchesOf sqliteKey1 cs tgt ++ regMatchesOf sqliteKey2 cs tgt
  let regSnips := regs.map (fun t => snippetAt cs (t.1 - 50) (t.2.1 + 150))
  let regNames := regs.map (fun _ => "sqlite3_create_function")
  let out := barePhaseGo cs (bareMatches cs tgt) [] (addrSnips ++ regSnips)
  { has_address_taken := !addrs.isEmpty
    function_registration := regNames
    suspicious_patterns := out.1
    context_snippets := out.2 }

/-- Sorted direct callers (or callees) of a target:
`sorted(map.get(target, set()))`. -/
def direct_of (m : FinMap) (target : String) : List String :=
  (dget m target).toFinset.sort (· ≤ ·)

/-- The `has_dependency` flag of `analyze_target`:
`bool(direct_callers or transitive_callers)`. -/
def has_dependency_of (cm : FinMap) (target : String) : Bool :=
  !(direct_of cm target).isEmpty || !(get_transitive_callers cm target).isEmpty

/-- Tags for the warning strings collected by `analyze_target`; the model
abstracts the formatted message texts by their kind. -/
inductive EdgeWarning
  | usesButNoCallers
  | addressTaken
  | sqliteRegistration
  | suspicious
  | deadCodeInfo
  | overridden
deriving Repr, DecidableEq

/-- Decision and warning computation of `analyze_target` (slicer.py): the
direct and transitive relations, the metadata hint and the pointer-usage
scan feed five conditional warnings, a default decision from
`has_dependency`, and an override to DEPENDENT on registration or
address-taken evidence.  The LLM evidence snippet does not influence the
decision or the warnings and is not modelled. -/
def analyze_target_decision (cm em : FinMap) (cg_text c_text : List Char)
    (target : String) : String × List EdgeWarning :=
  let has_dependency := has_dependency_of cm target
  let direct_callees := direct_of em target
  let _transitive_callees := get_transitive_callees em target 10
  let uses_count := parse_function_metadata_uses cg_text target
  let pu := check_function_pointer_usage c_text target.data
  let w1 :=
    if uses_count > 0 && !has_dependency then [EdgeWarning.usesButNoCallers]
    else []
  let w2 := if pu.has_address_taken then [EdgeWarning.addressTaken] else []
  let w3 :=
    if !pu.function_registration.isEmpty then [EdgeWarning.sqliteRegistration]
    else []
  let w4 :=
    if !pu.suspicious_patterns.isEmpty &&
        decide (3 < pu.suspicious_patterns.length) then
      [EdgeWarning.suspicious]
    else []
  let w5 :=
    if !has_dependency && decide (0 < direct_callees.length) then
      [EdgeWarning.deadCodeInfo]
    else []
  let base := if has_dependency then "DEPENDENT" else "SAFE_TO_REMOVE"
  let override :=
    !pu.function_registration.isEmpty || pu.has_address_taken
  let decision := if override then "DEPENDENT" else base
  let w6 := if override then [EdgeWarning.overridden] else []
  (decision, w1 ++ w2 ++ w3 ++ w4 ++ w5 ++ w6)

/-- Python `src_text.replace(crlf, lf)`: left-to-right non-overlapping
replacement of each CRLF pair by a single LF. -/
def normalizeCRLF : List Char → List Char
  | [] => []
  | '\x0d' :: '\n' :: rest => '\n' :: normalizeCRLF rest
  | c :: rest => c :: normalizeCRLF rest

/-- Whether the character at index `i` is a word character (absent counts
as non-word, the ends of the text). -/
def isWordAt (cs : List Char) (i : Nat) : Bool :=
  match cs[i]? with
  | some c => isWordChar c
  | none => false

/-- The regex word boundary `\b` at position `p` of the text. -/
def wordBoundaryAt (cs : List Char) (p : Nat) : Bool :=
  (match p with
    | 0 => false
    | q + 1 => isWordAt cs q) != isWordAt cs p

/-- After the function name at absolute position `j`, match the pattern tail
of the removal regex: `\s*` then `\([^)]*\)` then the lazy `[^{;]*?` ending
at an opening brace (a semicolon or the end of text first means failure).
Each quantifier here is deterministic because its class excludes the
character that follows it.  Returns the match end, one past the brace. -/
def sigAfterName (text : List Char) (j : Nat) : Option Nat :=
  let t1 := text.drop j
  let ws := t1.takeWhile pyWs
  match t1.drop ws.length with
  | c :: t3 =>
    if c = '(' then
      let seg := t3.takeWhile (fun c => c ≠ ')')
      match t3.drop seg.length with
      | c2 :: t4 =>
        if c2 = ')' then
          let seg2 := t4.takeWhile (fun c => c ≠ lbrace && c ≠ ';')
          match t4.drop seg2.length with
          | c3 :: _ =>
            if c3 = lbrace then
              some (j + ws.length + 1 + seg.length + 1 + seg2.length + 1)
            else none
          | [] => none
        else none
      | [] => none
    else none
  | [] => none

/-- The lazy `(?:[^\n]*?)\b<func>...` body of the removal regex, starting
from position `pos` (whose suffix is `s`): try the name at each successive
position of the current line, shortest prefix first, and stop at a
newline. -/
def tryBodyFrom (text func : List Char) : List Char → Nat → Option Nat
  | [], pos =>
    if wordBoundaryAt text pos && func.isPrefixOf ([] : List Char) then
      sigAfterName text (pos + func.length)
    else none
  | c :: rest, pos =>
    match
      (if wordBoundaryAt text pos && func.isPrefixOf (c :: rest) then
        sigAfterName text (pos + func.length)
      else none) with
    | some e => some e
    | none =>
      if c ≠ '\n' then tryBodyFrom text func rest (pos + 1) else none

/-- Whether the multiline anchor `^` matches at position `p`. -/
def caretAt (text : List Char) (p : Nat) : Bool :=
  match p with
  | 0 => true
  | q + 1 => text[q]? == some '\n'

/-- One attempt of the removal regex at start position `p`: the alternation
`(?:^|\n)` tries the zero-width anchor first and the literal newline
second.  Returns the match end. -/
def regexMatchAt (text func : List Char) (p : Nat) : Option Nat :=
  match
    (if caretAt text p then tryBodyFrom text func (text.drop p) p
     else none) with
  | some e => some e
  | none =>
    if text[p]? == some '\n' then
      tryBodyFrom text func (text.drop (p + 1)) (p + 1)
    else none

/-- Leftmost search of the removal regex (`matches[0]` of `finditer`):
scan start positions left to right.  The fuel is ample: one unit per
position up to the end of the text. -/
def regexSearchGo (text func : List Char) : Nat → Nat → Option (Nat × Nat)
  | 0, _ => none
  | fuel + 1, p =>
    if p ≤ text.length then
      match regexMatchAt text func p with
      | some e => some (p, e)
      | none => regexSearchGo text func fuel (p + 1)
    else none

/-- The first match of the removal regex: its start and end positions. -/
def regexFuncDefSearch (text func : List Char) : Option (Nat × Nat) :=
  regexSearchGo text func (text.length + 2) 0

/-- Python `text.find(pat, start)`: the first index at or after `start`
where `pat` occurs. -/
def findSubGo (pat cs : List Char) : Nat → Nat → Option Nat
  | 0, _ => none
  | fuel + 1, p =>
    if p + pat.length ≤ cs.length then
      if pat.isPrefixOf (cs.drop p) then some p
      else findSubGo pat cs fuel (p + 1)
    else none

/-- Substring search with ample fuel. -/
def findSub (cs pat : List Char) (start : Nat) : Option Nat :=
  findSubGo pat cs (cs.length + 2) start

/-- Python `text.rfind(c, 0, stop)`: the largest index below `stop` holding
the character `c`. -/
def rfindChar (cs : List Char) (c : Char) : Nat → Option Nat
  | 0 => none
  | n + 1 => if cs[n]? = some c then some n else rfindChar cs c n

/-- A found index lies below the search bound. -/
theorem rfindChar_lt {cs : List Char} {c : Char} {stop j : Nat}
    (h : rfindChar cs c stop = some j) : j < stop := by
  induction stop with
  | zero => simp [rfindChar] at h
  | succ n ih =>
    rw [rfindChar] at h
    split at h
    · injection h with h2
      omega
    · exact Nat.lt_succ_of_lt (ih h)

/-- Python `str.strip()` over ASCII whitespace. -/
def pyStrip (l : List Char) : List Char :=
  ((l.dropWhile pyWs).reverse.dropWhile pyWs).reverse

/-- A line-comment or block-comment opener at the start of the line. -/
def startsCommentish (l : List Char) : Bool :=
  ("//").data.isPrefixOf l || ("/*").data.isPrefixOf l

/-- A stripped line ending in a semicolon or a brace, where the signature
back-scan stops. -/
def endsDeclish (l : List Char) : Bool :=
  match l.getLast? with
  | some c => c = ';' || c = rbrace || c = lbrace
  | none => false

/-- Signature back-scan of the fallback path: absorb preceding
return-type or qualifier continuation lines while they are non-empty,
not comment-only and do not end a previous declaration. -/
def backScan (text : List Char) (check_pos sig_start : Nat) : Nat :=
  if h : 0 < check_pos then
    let prev_start :=
      match rfindChar text '\n' (check_pos - 1) with
      | some j => j + 1
      | none => 0
    let prev_line :=
      pyStrip ((text.drop prev_start).take (check_pos - prev_start))
    if !prev_line.isEmpty && !startsCommentish prev_line &&
        !endsDeclish prev_line then
      backScan text prev_start prev_start
    else sig_start
  else sig_start
termination_by check_pos
decreasing_by
  split
  · rename_i j hj
    exact Nat.lt_of_le_of_lt (Nat.succ_le_of_lt (rfindChar_lt hj))
      (Nat.sub_lt h one_pos)
  · omega

/-- Lexical state of the brace-matching scan: the five mutually exclusive
mode flags of the Python loop, the escape flag and the depth counter. -/
structure LexSt where
  in_string : Bool
  in_char : Bool
  in_sl_comment : Bool
  in_ml_comment : Bool
  escape_next : Bool
  depth : Int
deriving Repr, DecidableEq

/-- Output of one step of the brace scan: the next state, how many
characters the loop body consumed (two for the digraphs), and whether the
scan returned at this character (depth reached zero on a closing brace). -/
structure StepOut where
  st : LexSt
  consumed : Nat
  finished : Bool
deriving Repr, DecidableEq

/-- One iteration of the brace-matching loop over the character `ch` with
lookahead `nextCh`, in the exact branch order of the Python code. -/
def braceStep (st : LexSt) (ch : Char) (nextCh : Option Char) : StepOut :=
  if st.escape_next then ⟨{ st with escape_next := false }, 1, false⟩
  else if st.in_string then
    if ch = bslash then ⟨{ st with escape_next := true }, 1, false⟩
    else if ch = dquote then ⟨{ st with in_string := false }, 1, false⟩
    else ⟨st, 1, false⟩
  else if st.in_char then
    if ch = bslash then ⟨{ st with escape_next := true }, 1, false⟩
    else if ch = squote then ⟨{ st with in_char := false }, 1, false⟩
    else ⟨st, 1, false⟩
  else if st.in_sl_comment then
    if ch = '\n' then ⟨{ st with in_sl_comment := false }, 1, false⟩
    else ⟨st, 1, false⟩
  else if st.in_ml_comment then
    if ch = '*' ∧ nextCh = some '/' then
      ⟨{ st with in_ml_comment := false }, 2, false⟩
    else ⟨st, 1, false⟩
  else if ch = '/' ∧ nextCh = some '/' then
    ⟨{ st with in_sl_comment := true }, 2, false⟩
  else if ch = '/' ∧ nextCh = some '*' then
    ⟨{ st with in_ml_comment := true }, 2, false⟩
  else if ch = dquote then ⟨{ st with in_string := true }, 1, false⟩
  else if ch = squote then ⟨{ st with in_char := true }, 1, false⟩
  else if ch = lbrace then ⟨{ st with depth := st.depth + 1 }, 1, false⟩
  else if ch = rbrace then
    ⟨{ st with depth := st.depth - 1 }, 1, decide (st.depth - 1 = 0)⟩
  else ⟨st, 1, false⟩

/-- Outcome of the brace scan: the position one past the matching closing
brace, or the final depth when the text ends first. -/
inductive ScanOut
  | ok (body_end : Nat)
  | unbalanced (depth : Int)
deriving Repr, DecidableEq

/-- The brace-matching scan from absolute position `i`, whose suffix is the
first argument, driven by `braceStep`.  A step can only consume two
characters when a lookahead character exists, so the empty-rest branch of
that case is unreachable; it is written as the loop exit it would fall
through to. -/
def scanBraces : List Char → Nat → LexSt → ScanOut
  | [], _, st => .unbalanced st.depth
  | c :: rest, i, st =>
    let out := braceStep st c rest.head?
    if out.finished then .ok (i + 1)
    else if out.consumed = 2 then
      match rest with
      | _ :: rest2 => scanBraces rest2 (i + 2) out.st
      | [] => .unbalanced out.st.depth
    else scanBraces rest (i + 1) out.st

/-- The initial scan state: normal mode, depth zero. -/
def initLexSt : LexSt := ⟨false, false, false, false, false, 0⟩

/-- Failure and success reasons of the removal operation; the model tags
the Python message strings by kind (the removed-character count and the
final depth keep their values). -/
inductive RemovalInfo
  | notFound
  | noOpenBrace
  | onlyPrototype
  | removedChars (n : Nat)
  | unbalancedAt (depth : Int)
deriving Repr, DecidableEq

/-- Result triple of `_remove_function_from_c_source`. -/
structure RemovalResult where
  text : List Char
  removed : Bool
  info : RemovalInfo
deriving Repr, DecidableEq

/-- Successful-scan epilogue: extend the cut by one adjacent newline on
each side when present and splice the normalized buffer around it; an
unbalanced scan returns the original source unchanged. -/
def finishCut (src norm : List Char) (sig_start : Nat) (sc : ScanOut) :
    RemovalResult :=
  match sc with
  | .ok body_end =>
    let cut_start :=
      if 0 < sig_start ∧ norm[sig_start - 1]? = some '\n' then sig_start - 1
      else sig_start
    let cut_end :=
      if body_end < norm.length ∧ norm[body_end]? = some '\n' then body_end + 1
      else body_end
    ⟨norm.take cut_start ++ norm.drop cut_end, true,
      .removedChars (cut_end - cut_start)⟩
  | .unbalanced d => ⟨src, false, .unbalancedAt d⟩

/-- The removal operation `_remove_function_from_c_source` of app.py:
normalize CRLF, find the definition by the multi-line regex or by the
find-based fallback (which skips a prototype once and back-scans the
signature), then brace-match and cut.  Every failure returns the original
source text unchanged. -/
def remove_function_from_c_source (src func : List Char) : RemovalResult :=
  let text := normalizeCRLF src
  match regexFuncDefSearch text func with
  | some (s, e) =>
    finishCut src text s (scanBraces (text.drop (e - 1)) (e - 1) initLexSt)
  | none =>
    match findSub text (func ++ ['(']) 0 with
    | none => ⟨src, false, .notFound⟩
    | some name_idx =>
      match findSub text [lbrace] name_idx with
      | none => ⟨src, false, .noOpenBrace⟩
      | some brace0 =>
        let retry :=
          match findSub text [';'] name_idx with
          | some semi => decide (semi < brace0)
          | none => false
        if retry then
          match findSub text (func ++ ['(']) (name_idx + 1) with
          | none => ⟨src, false, .onlyPrototype⟩
          | some n2 =>
            match findSub text [lbrace] n2 with
            | none => ⟨src, false, .noOpenBrace⟩
            | some b2 =>
              let sig0 :=
                match rfindChar text '\n' n2 with
                | some j => j + 1
                | none => 0
              let s := backScan text (sig0 - 1) sig0
              finishCut src text s (scanBraces (text.drop b2) b2 initLexSt)
        else
          let sig0 :=
            match rfindChar text '\n' name_idx with
            | some j => j + 1
            | none => 0
          let s := backScan text (sig0 - 1) sig0
          finishCut src text s (scanBraces (text.drop brace0) brace0 initLexSt)

-- Theorems.

/-- Membership after a dictionary add. -/
theorem mem_dget_dAdd {m : FinMap} {k v a b : String} :
    b ∈ dget (dAdd m k v) a ↔ (a = k ∧ b = v) ∨ b ∈ dget m a := by
  induction m with
  | nil =>
    by_cases hk : k = a
    · subst hk
      simp [dAdd, dget]
    · have hak : ¬a = k := fun h => hk h.symm
      simp [dAdd, dget, hk, hak]
  | cons kv rest ih =>
    obtain ⟨k', vs⟩ := kv
    have eAddEq : k' = k →
        dAdd ((k', vs) :: rest) k v =
          (k', if v ∈ vs then vs else vs ++ [v]) :: rest := by
      intro h; simp [dAdd, h]
    have eAddNe : ¬k' = k →
        dAdd ((k', vs) :: rest) k v = (k', vs) :: dAdd rest k v := by
      intro h; simp [dAdd, h]
    have eGetEq : ∀ (X : List String) (r : FinMap), k' = a →
        dget ((k', X) :: r) a = X := by
      intro X r h; simp [dget, h]
    have eGetNe : ∀ (X : List String) (r : FinMap), ¬k' = a →
        dget ((k', X) :: r) a = dget r a := by
      intro X r h; simp [dget, h]
    by_cases h1 : k' = k
    · by_cases h2 : k' = a
      · rw [eAddEq h1, eGetEq _ _ h2, eGetEq _ _ h2]
        have hak : a = k := h2.symm.trans h1
        by_cases h3 : v ∈ vs
        · rw [if_pos h3]
          constructor
          · exact fun h => Or.inr h
          · rintro (⟨-, rfl⟩ | h) <;> [exact h3; exact h]
        · rw [if_neg h3]
          simp only [List.mem_append, List.mem_singleton]
          constructor
          · rintro (h | rfl) <;> [exact Or.inr h; exact Or.inl ⟨hak, rfl⟩]
          · rintro (⟨-, rfl⟩ | h) <;> [exact Or.inr rfl; exact Or.inl h]
      · rw [eAddEq h1, eGetNe _ _ h2, eGetNe _ _ h2]
        have hak : ¬a = k := fun h => h2 (h1.trans h.symm)
        tauto
    · by_cases h2 : k' = a
      · rw [eAddNe h1, eGetEq _ _ h2, eGetEq _ _ h2]
        have hak : ¬a = k := fun h => h1 (h2.trans h)
        tauto
      · rw [eAddNe h1, eGetNe _ _ h2, eGetNe _ _ h2]
        exact ih

/-- A bare `setdefault` never changes any read with default. -/
theorem dget_dSetdefault {m : FinMap} {k a : String} :
    dget (dSetdefault m k) a = dget m a := by
  induction m with
  | nil =>
    simp only [dSetdefault, dget]
    split <;> rfl
  | cons kv rest ih =>
    obtain ⟨k', vs⟩ := kv
    simp only [dSetdefault]
    by_cases h1 : k' = k
    · simp [h1]
    · simp only [if_neg h1, dget, ih]

/-- Invariant carried through the two parsing passes: if two accumulators
agree edge-for-edge, so do the finished maps.  Both passes test the same
line against the same header and call matchers and record the same edge,
one forward and one reversed. -/
theorem parse_go_agree (lines : List (List Char)) :
    ∀ (cur : Option String) (A B : FinMap),
      (∀ a b, b ∈ dget A a ↔ a ∈ dget B b) →
      ∀ a b,
        b ∈ dget (parseCalleesGo lines cur A) a ↔
          a ∈ dget (parseCallgraphGo lines cur B) b := by
  induction lines with
  | nil => intro cur A B h a b; simpa [parseCalleesGo, parseCallgraphGo] using h a b
  | cons line rest ih =>
    intro cur A B h a b
    simp only [parseCalleesGo, parseCallgraphGo]
    cases hnode : nodeCapture line with
    | some nm =>
      exact ih (some nm) (dSetdefault A nm) B
        (fun a b => by rw [dget_dSetdefault]; exact h a b) a b
    | none =>
      cases htru : pyTruthy cur with
      | false => simp only [Bool.false_eq_true, if_false]; exact ih cur A B h a b
      | true =>
        simp only [if_true]
        cases hcall : callCapture line with
        | some callee =>
          cases cur with
          | none => simp [pyTruthy] at htru
          | some c =>
            exact ih (some c) (dAdd A c callee) (dAdd B callee c)
              (fun a b => by
                rw [mem_dget_dAdd, mem_dget_dAdd]
                constructor
                · rintro (⟨rfl, rfl⟩ | hm) <;>
                    [exact Or.inl ⟨rfl, rfl⟩; exact Or.inr ((h a b).mp hm)]
                · rintro (⟨rfl, rfl⟩ | hm) <;>
                    [exact Or.inl ⟨rfl, rfl⟩; exact Or.inr ((h a b).mpr hm)]) a b
        | none =>
          cases cur with
          | none => simp [pyTruthy] at htru
          | some c => exact ih (some c) A B h a b

/-- Everything initially seen or on the work list ends in the visited set
of the callers traversal. -/
theorem tcLoop_mem (m : FinMap) (seen : Finset String) (work : List String) :
    ∀ x, x ∈ seen ∨ x ∈ work → x ∈ tcLoop m seen work := by
  induction seen, work using tcLoop.induct m with
  | case1 seen =>
    intro x hx
    rw [tcLoop]
    rcases hx with h | h
    · exact h
    · simp at h
  | case2 seen who rest hmem ih =>
    intro x hx
    rw [tcLoop, dif_pos hmem]
    apply ih
    rcases hx with h | h
    · exact Or.inl h
    · rcases List.mem_cons.mp h with rfl | hr
      · exact Or.inl hmem
      · exact Or.inr hr
  | case3 seen who rest hmem ih =>
    intro x hx
    rw [tcLoop, dif_neg hmem]
    apply ih
    rcases hx with h | h
    · exact Or.inl (Finset.mem_insert_of_mem h)
    · rcases List.mem_cons.mp h with rfl | hr
      · exact Or.inl (Finset.mem_insert_self _ _)
      · exact Or.inr (List.mem_append_right _ hr)

/-- Everything initially seen or on the work list at depth one ends in the
visited set of the depth-bounded callees traversal with bound one. -/
theorem tcdLoop_mem_one (m : FinMap) (seen : Finset String)
    (work : List (String × Nat)) :
    ∀ x, x ∈ seen ∨ (x, 1) ∈ work → x ∈ tcdLoop m 1 seen work := by
  induction seen, work using tcdLoop.induct m 1 with
  | case1 seen =>
    intro x hx
    rw [tcdLoop]
    rcases hx with h | h
    · exact h
    · simp at h
  | case2 seen who depth rest h ih =>
    intro x hx
    rw [tcdLoop, dif_pos h]
    apply ih
    rcases hx with hx | hx
    · exact Or.inl hx
    · rcases List.mem_cons.mp hx with heq | hr
      · cases heq
        rcases h with h | h
        · exact Or.inl h
        · exact absurd h (by omega)
      · exact Or.inr hr
  | case3 seen who depth rest h ih =>
    intro x hx
    rw [tcdLoop, dif_neg h]
    apply ih
    rcases hx with hx | hx
    · exact Or.inl (Finset.mem_insert_of_mem hx)
    · rcases List.mem_cons.mp hx with heq | hr
      · cases heq
        exact Or.inl (Finset.mem_insert_self _ _)
      · exact Or.inr (List.mem_append_right _ hr)

/-- With depth bound one, the visited set stays inside the initial seen set
and the depth-one entries of the work list: deeper entries are skipped and
every expansion pushes only depth-two entries. -/
theorem tcdLoop_subset_one (m : FinMap) (seen : Finset String)
    (work : List (String × Nat)) :
    (∀ p ∈ work, 1 ≤ p.2) →
      tcdLoop m 1 seen work ⊆
        seen ∪ (work.filterMap
          (fun p => if p.2 = 1 then some p.1 else none)).toFinset := by
  induction seen, work using tcdLoop.induct m 1 with
  | case1 seen =>
    intro _
    rw [tcdLoop]
    exact Finset.subset_union_left
  | case2 seen who depth rest h ih =>
    intro hw
    rw [tcdLoop, dif_pos h]
    refine (ih (fun p hp => hw p (List.mem_cons_of_mem _ hp))).trans ?_
    apply Finset.union_subset_union_right
    intro x hx
    simp only [List.mem_toFinset, List.filterMap_cons] at hx ⊢
    by_cases hd : depth = 1
    · simp only [if_pos hd]
      exact List.mem_cons_of_mem _ hx
    · simp only [if_neg hd]
      exact hx
  | case3 seen who depth rest h ih =>
    intro hw
    rw [tcdLoop, dif_neg h]
    push_neg at h
    have hd1 : depth = 1 :=
      Nat.le_antisymm h.2 (hw _ (List.mem_cons_self _ _))
    subst hd1
    refine (ih ?_).trans ?_
    · intro p hp
      rcases List.mem_append.mp hp with hp | hp
      · obtain ⟨c, -, rfl⟩ := List.mem_map.mp hp
        omega
      · exact hw p (List.mem_cons_of_mem _ hp)
    · intro x hx
      rcases Finset.mem_union.mp hx with hx | hx
      · rcases Finset.mem_insert.mp hx with rfl | hx
        · apply Finset.mem_union_right
          simp [List.filterMap_cons]
        · exact Finset.mem_union_left _ hx
      · apply Finset.mem_union_right
        simp only [List.mem_toFinset, List.filterMap_append,
          List.mem_append] at hx
        rcases hx with hx | hx
        · exfalso
          rw [List.filterMap_map] at hx
          simp at hx
        · simp only [List.mem_toFinset, List.filterMap_cons, if_pos rfl]
          exact List.mem_cons_of_mem _ hx

/-- C1 counterexample.  On the two-node cycle where A calls B and B calls A
(so the reverse map sends A to B and B to A), the transitive callers of A
as computed by the code contain the target A itself: the work-list guard
prevents re-expansion but never excludes the target, so a target lying on
a cycle is visited.  This falsifies the claim that the result always
excludes the target. -/
theorem C1_counterexample :
    get_transitive_callers [("A", ["B"]), ("B", ["A"])] "A" = ["A", "B"] ∧
      "A" ∈ get_transitive_callers [("A", ["B"]), ("B", ["A"])] "A" := by
  have h1 : dget [("A", ["B"]), ("B", ["A"])] "A" = ["B"] := by simp [dget]
  have h2 : tcLoop [("A", ["B"]), ("B", ["A"])] ∅ ["B"] =
      (["A", "B"] : List String).toFinset := by
    simp [tcLoop, dget]
  have h3 : get_transitive_callers [("A", ["B"]), ("B", ["A"])] "A" =
      ["A", "B"] := by
    rw [get_transitive_callers, h1, h2]
    exact (List.toFinset_sort (· ≤ ·) (by decide)).mpr
      (by simp [List.sorted_cons]; decide)
  exact ⟨h3, by rw [h3]; simp⟩

/-- C1 (amended).  The transitive-callers list is sorted and duplicate-free
and contains every direct caller of the target; it does not in general
exclude the target: on the two-node cycle A calls B calls A the result for
target A is exactly the two-element list [A, B], which contains B exactly
once but also contains A itself, because A is reachable from its own
caller. -/
theorem C1_transitive_callers :
    (∀ (m : FinMap) (t c : String),
        c ∈ dget m t → c ∈ get_transitive_callers m t) ∧
    (∀ (m : FinMap) (t : String),
        (get_transitive_callers m t).Sorted (· ≤ ·) ∧
          (get_transitive_callers m t).Nodup) ∧
    (get_transitive_callers [("A", ["B"]), ("B", ["A"])] "A" = ["A", "B"] ∧
      List.count "B" (get_transitive_callers [("A", ["B"]), ("B", ["A"])] "A")
        = 1) := by
  refine ⟨?_, ?_, ?_, ?_⟩
  · intro m t c hc
    rw [get_transitive_callers]
    rw [Finset.mem_sort]
    exact tcLoop_mem m ∅ (dget m t) c (Or.inr hc)
  · intro m t
    exact ⟨Finset.sort_sorted _ _, Finset.sort_nodup _ _⟩
  · have h1 : dget [("A", ["B"]), ("B", ["A"])] "A" = ["B"] := by simp [dget]
    have h2 : tcLoop [("A", ["B"]), ("B", ["A"])] ∅ ["B"] =
        (["A", "B"] : List String).toFinset := by
      simp [tcLoop, dget]
    rw [get_transitive_callers, h1, h2]
    exact (List.toFinset_sort (· ≤ ·) (by decide)).mpr
      (by simp [List.sorted_cons]; decide)
  · have h1 : dget [("A", ["B"]), ("B", ["A"])] "A" = ["B"] := by simp [dget]
    have h2 : tcLoop [("A", ["B"]), ("B", ["A"])] ∅ ["B"] =
        (["A", "B"] : List String).toFinset := by
      simp [tcLoop, dget]
    have h3 : get_transitive_callers [("A", ["B"]), ("B", ["A"])] "A" =
        ["A", "B"] := by
      rw [get_transitive_callers, h1, h2]
      exact (List.toFinset_sort (· ≤ ·) (by decide)).mpr
        (by simp [List.sorted_cons]; decide)
    rw [h3]
    decide

/-- C1 witness: the superset part of the theorem applied at a concrete map
where X directly calls T. -/
theorem C1_witness :
    "X" ∈ get_transitive_callers [("T", ["X"])] "T" :=
  C1_transitive_callers.1 [("T", ["X"])] "T" "X" (by simp [dget])

/-- C7.  With maximum depth one the transitive-callees traversal returns
exactly the sorted set of direct callees of the target: the initial work
items carry depth one and are all visited, and every pushed item carries
depth two and is skipped by the depth guard. -/
theorem C7_callees_depth_one (m : FinMap) (t : String) :
    get_transitive_callees m t 1 = ((dget m t).toFinset).sort (· ≤ ·) := by
  rw [get_transitive_callees]
  congr 1
  apply Finset.Subset.antisymm
  · refine (tcdLoop_subset_one m ∅ _ ?_).trans ?_
    · intro p hp
      obtain ⟨c, -, rfl⟩ := List.mem_map.mp hp
      exact le_refl 1
    · rw [Finset.empty_union, List.filterMap_map]
      intro x hx
      simp only [List.mem_toFinset] at hx ⊢
      simpa using hx
  · intro x hx
    apply tcdLoop_mem_one
    right
    simp only [List.mem_map]
    exact ⟨x, by simpa using hx, rfl⟩

/-- C8 counterexample.  The pattern of `parse_function_metadata` is compiled
with `re.IGNORECASE`, so a call-graph text whose only header names `FOO`
still yields its uses count for the target `foo`: the claim that a header
differing from the target solely in letter case yields zero is false. -/
theorem C8_counterexample :
    parse_function_metadata_uses
        (("Call graph node for function: " ++ sqS ++ "FOO" ++ sqS ++
          "<<0x1>> #uses=3\n").data) "foo" = 3 ∧
      parse_function_metadata_uses
        (("Call graph node for function: " ++ sqS ++ "FOO" ++ sqS ++
          "<<0x1>> #uses=3\n").data) "foo" ≠ 0 := by
  constructor
  · rfl
  · decide

/-- C8 (amended).  Name matching is case-sensitive in the call-graph
parser: `NODE_RX` carries no IGNORECASE flag, so a header whose literal
differs in case is not a header at all.  But `parse_function_metadata`
compiles its node pattern with `re.IGNORECASE`, so the uses hint is
extracted case-insensitively on the name: a header naming `FOO` yields
the same count for targets `foo`, `FOO` and `fOo`. -/
theorem C8_metadata_case_insensitive :
    parse_function_metadata_uses
        (("Call graph node for function: " ++ sqS ++ "FOO" ++ sqS ++
          "<<0x1>> #uses=3\n").data) "foo" = 3 ∧
      parse_function_metadata_uses
        (("Call graph node for function: " ++ sqS ++ "FOO" ++ sqS ++
          "<<0x1>> #uses=3\n").data) "FOO" = 3 ∧
      parse_function_metadata_uses
        (("Call graph node for function: " ++ sqS ++ "FOO" ++ sqS ++
          "<<0x1>> #uses=3\n").data) "fOo" = 3 ∧
      nodeCapture
        (("call graph node for function: " ++ sqS ++ "FOO" ++ sqS).data)
        = none ∧
      nodeCapture
        (("Call graph node for function: " ++ sqS ++ "FOO" ++ sqS).data)
        = some "FOO" := by
  refine ⟨rfl, rfl, rfl, rfl, rfl⟩

/-- The bare-name phase never pushes the snippet list beyond five entries:
it appends only below five, so the final length is bounded by the larger
of the incoming length and five. -/
theorem barePhaseGo_snips_le (cs : List Char) :
    ∀ (ms : List (Nat × Nat)) (sus : List Nat) (snips : List (List Char)),
      (barePhaseGo cs ms sus snips).2.length ≤ max snips.length 5 := by
  intro ms
  induction ms with
  | nil => intro sus snips; simp [barePhaseGo]
  | cons pr rest ih =>
    intro sus snips
    obtain ⟨s, e⟩ := pr
    rw [barePhaseGo]
    split
    · split
      · split
        · by_cases hlt : snips.length < 5
          · rw [if_pos hlt]
            refine (ih _ _).trans ?_
            simp only [List.length_append, List.length_singleton]
            omega
          · rw [if_neg hlt]
            exact ih _ _
        · exact ih _ _
      · exact ih _ _
    · exact ih _ _

/-- The bare-name phase only appends: the incoming snippets stay. -/
theorem barePhaseGo_snips_ge (cs : List Char) :
    ∀ (ms : List (Nat × Nat)) (sus : List Nat) (snips : List (List Char)),
      snips.length ≤ (barePhaseGo cs ms sus snips).2.length := by
  intro ms
  induction ms with
  | nil => intro sus snips; simp [barePhaseGo]
  | cons pr rest ih =>
    intro sus snips
    obtain ⟨s, e⟩ := pr
    rw [barePhaseGo]
    split
    · split
      · split
        · refine le_trans ?_ (ih _ _)
          split
          · simp only [List.length_append, List.length_singleton]
            omega
          · exact le_refl _
        · exact ih _ _
      · exact ih _ _
    · exact ih _ _

/-- C3 counterexample.  Six address-of occurrences of the target produce
six context snippets: the cap of five applies only to the bare-name
phase, while each address-of match appends a snippet unconditionally, so
the total is not bounded by the five-snippet cap of the code. -/
theorem C3_counterexample :
    (check_function_pointer_usage ("&foo &foo &foo &foo &foo &foo").data
        ("foo").data).context_snippets.length = 6 ∧
      ¬(check_function_pointer_usage ("&foo &foo &foo &foo &foo &foo").data
          ("foo").data).context_snippets.length ≤ 5 := by
  constructor
  · rfl
  · decide

/-- C3 (amended).  The snippet total is bounded below by the number of
address-of and registration matches, each of which captures a snippet
unconditionally; only the bare-name phase is capped, so the total never
exceeds the larger of that match count and five.  In particular the total
is a fixed constant bound only when address-of and registration matches
are themselves few. -/
theorem C3_snippets_amended (cs tgt : List Char) :
    ((addrMatches cs tgt).length + ((regMatchesOf sqliteKey1 cs tgt).length +
        (regMatchesOf sqliteKey2 cs tgt).length) ≤
      (check_function_pointer_usage cs tgt).context_snippets.length) ∧
    ((check_function_pointer_usage cs tgt).context_snippets.length ≤
      max ((addrMatches cs tgt).length +
        ((regMatchesOf sqliteKey1 cs tgt).length +
          (regMatchesOf sqliteKey2 cs tgt).length)) 5) := by
  have hlen :
      ((addrMatches cs tgt).map
          (fun pr => snippetAt cs (pr.1 - 100) (pr.2 + 100)) ++
        (regMatchesOf sqliteKey1 cs tgt ++
          regMatchesOf sqliteKey2 cs tgt).map
            (fun t => snippetAt cs (t.1 - 50) (t.2.1 + 150))).length =
      (addrMatches cs tgt).length + ((regMatchesOf sqliteKey1 cs tgt).length +
        (regMatchesOf sqliteKey2 cs tgt).length) := by
    simp [List.length_append, List.length_map]
  constructor
  · rw [check_function_pointer_usage]
    calc (addrMatches cs tgt).length + ((regMatchesOf sqliteKey1 cs tgt).length
          + (regMatchesOf sqliteKey2 cs tgt).length)
        = _ := hlen.symm
      _ ≤ _ := barePhaseGo_snips_ge cs _ _ _
  · rw [check_function_pointer_usage]
    refine (barePhaseGo_snips_le cs _ _ _).trans ?_
    rw [hlen]

/-- C2 counterexample.  A target with a `#uses=2` hint, no callers at all
and no pointer evidence is decided SAFE_TO_REMOVE: the code only records
the under-count as a warning and overrides the decision solely on
registration or address-taken evidence, so the claim that a positive
reference-count hint alone forces DEPENDENT is false. -/
theorem C2_counterexample :
    (analyze_target_decision [] []
        (("Call graph node for function: " ++ sqS ++ "foo" ++ sqS ++
          "<<0x2>> #uses=2\n").data)
        (("int x = 1;").data) "foo").1 = "SAFE_TO_REMOVE" ∧
    parse_function_metadata_uses
        (("Call graph node for function: " ++ sqS ++ "foo" ++ sqS ++
          "<<0x2>> #uses=2\n").data) "foo" = 2 ∧
    direct_of [] "foo" = [] ∧
    get_transitive_callers [] "foo" = [] ∧
    (check_function_pointer_usage (("int x = 1;").data)
        ("foo").data).has_address_taken = false ∧
    (check_function_pointer_usage (("int x = 1;").data)
        ("foo").data).function_registration = [] ∧
    EdgeWarning.usesButNoCallers ∈
      (analyze_target_decision [] []
        (("Call graph node for function: " ++ sqS ++ "foo" ++ sqS ++
          "<<0x2>> #uses=2\n").data)
        (("int x = 1;").data) "foo").2 := by
  have ecallers : get_transitive_callers [] "foo" = [] := by
    rw [get_transitive_callers]
    rw [show dget ([] : FinMap) "foo" = [] from rfl]
    rw [tcLoop]
    exact Finset.sort_empty _
  have ecallees : get_transitive_callees [] "foo" 10 = [] := by
    rw [get_transitive_callees]
    rw [show ((dget ([] : FinMap) "foo").map fun c => (c, 1)) = [] from rfl]
    rw [tcdLoop]
    exact Finset.sort_empty _
  have edir : direct_of [] "foo" = [] := by
    rw [direct_of]
    rw [show dget ([] : FinMap) "foo" = [] from rfl]
    simp [Finset.sort_empty]
  have ehd : has_dependency_of [] "foo" = false := by
    rw [has_dependency_of, edir, ecallers]
    rfl
  have epu : check_function_pointer_usage (("int x = 1;").data) ("foo").data =
      ⟨false, [], [], []⟩ := rfl
  have euses : parse_function_metadata_uses
      (("Call graph node for function: " ++ sqS ++ "foo" ++ sqS ++
        "<<0x2>> #uses=2\n").data) "foo" = 2 := rfl
  refine ⟨?_, euses, edir, ecallers, by rw [epu], by rw [epu], ?_⟩
  · rw [analyze_target_decision]
    simp only [ehd, epu, euses, edir, ecallees]
    rfl
  · rw [analyze_target_decision]
    simp only [ehd, epu, euses, edir, ecallees]
    simp [EdgeWarning.usesButNoCallers]

/-- C2 (amended).  The decision is DEPENDENT exactly when a caller is
present (direct or transitive) or address-of evidence is present or
registration evidence is present; a positive reference-count hint with
zero callers produces the under-count warning but does not by itself
change the decision. -/
theorem C2_decision_amended (cm em : FinMap) (cg c : List Char) (t : String) :
    ((analyze_target_decision cm em cg c t).1 = "DEPENDENT" ↔
      (has_dependency_of cm t = true ∨
        (check_function_pointer_usage c t.data).has_address_taken = true ∨
        (check_function_pointer_usage c t.data).function_registration.isEmpty
          = false)) ∧
    (EdgeWarning.usesButNoCallers ∈ (analyze_target_decision cm em cg c t).2 ↔
      (0 < parse_function_metadata_uses cg t ∧
        has_dependency_of cm t = false)) := by
  rw [analyze_target_decision]
  by_cases huse : 0 < parse_function_metadata_uses cg t <;>
    cases hhd : has_dependency_of cm t <;>
    cases haddr : (check_function_pointer_usage c t.data).has_address_taken <;>
    cases hreg :
      (check_function_pointer_usage c t.data).function_registration.isEmpty <;>
    simp_all

/-- C4.  For every call-graph text the forward and reverse maps agree
edge-for-edge: `b` is among the callees of `a` recorded by
`parse_callees_map` exactly when `a` is among the callers of `b` recorded
by `parse_callgraph_text`. -/
theorem C4_parse_maps_agree (text : List Char) (a b : String) :
    b ∈ dget (parse_callees_map text) a ↔
      a ∈ dget (parse_callgraph_text text) b := by
  exact parse_go_agree (splitlines text) none [] [] (by simp [dget]) a b

/-- C5.  Lexical-mode correctness of the brace scan, stated on its step
function: in any non-normal situation (escape pending, or inside a string,
character, line-comment or block-comment mode) a step never changes the
depth counter and never finishes the scan — in particular a brace inside a
string literal is inert; inside string or character mode an unescaped
backslash raises the escape flag, which suppresses the meaning of the next
character; and scanning the concrete body containing a string literal
holding an opening brace terminates at the real closing brace, position 18,
not at the literal. -/
theorem C5_brace_scan_modes :
    (∀ (st : LexSt) (ch : Char) (next : Option Char),
        (st.escape_next = true ∨ st.in_string = true ∨ st.in_char = true ∨
          st.in_sl_comment = true ∨ st.in_ml_comment = true) →
        (braceStep st ch next).st.depth = st.depth ∧
          (braceStep st ch next).finished = false) ∧
    (∀ (st : LexSt) (ch : Char) (next : Option Char),
        (st.in_string = true ∨ st.in_char = true) → st.escape_next = false →
        ch = bslash → (braceStep st ch next).st.escape_next = true) ∧
    scanBraces (lbS ++ " char *x = " ++ dqS ++ lbS ++ dqS ++ "; " ++ rbS).data
      0 initLexSt = ScanOut.ok 18 := by
  refine ⟨?_, ?_, rfl⟩
  · intro st ch next h
    have hne1 : ¬(dquote = bslash) := by decide
    have hne2 : ¬(squote = bslash) := by decide
    obtain ⟨is0, ic, isl, iml, esc, d⟩ := st
    cases esc with
    | true => exact ⟨rfl, rfl⟩
    | false =>
      cases is0 with
      | true =>
        by_cases h1 : ch = bslash
        · simp [braceStep, h1]
        · by_cases h2 : ch = dquote <;> simp [braceStep, h1, h2, hne1]
      | false =>
        cases ic with
        | true =>
          by_cases h1 : ch = bslash
          · simp [braceStep, h1]
          · by_cases h2 : ch = squote <;> simp [braceStep, h1, h2, hne2]
        | false =>
          cases isl with
          | true => by_cases h1 : ch = '\n' <;> simp [braceStep, h1]
          | false =>
            cases iml with
            | true =>
              by_cases h1 : ch = '*' ∧ next = some '/' <;>
                simp [braceStep, h1]
            | false => simp_all
  · intro st ch next h hesc hch
    obtain ⟨is0, ic, isl, iml, esc, d⟩ := st
    dsimp only at hesc hch h
    subst hesc
    subst hch
    rcases h with h | h
    · subst h
      simp [braceStep]
    · subst h
      cases is0 <;> simp [braceStep]

/-- C5 witness: inside string mode a closing brace leaves the depth at
seven and does not finish, and a backslash sets the escape flag. -/
theorem C5_witness :
    ((braceStep ⟨true, false, false, false, false, 7⟩ rbrace none).st.depth = 7
      ∧ (braceStep ⟨true, false, false, false, false, 7⟩ rbrace none).finished
        = false) ∧
    (braceStep ⟨true, false, false, false, false, 3⟩ bslash none).st.escape_next
      = true :=
  ⟨C5_brace_scan_modes.1 ⟨true, false, false, false, false, 7⟩ rbrace none
      (Or.inr (Or.inl rfl)),
    C5_brace_scan_modes.2.1 ⟨true, false, false, false, false, 3⟩ bslash none
      (Or.inl rfl) rfl rfl⟩

/-- C6.  On a prototype followed by a definition of the same function, the
removal excises exactly the definition: the regex candidate at the
prototype line fails at the semicolon, the next candidate at the
definition line succeeds, and the returned text is precisely the surviving
prototype line. -/
theorem C6_prototype_skipped :
    (remove_function_from_c_source
        (("void bar(int x);\nvoid bar(int x) " ++ lbS ++ " return; " ++
          rbS).data) ("bar").data).removed = true ∧
    (remove_function_from_c_source
        (("void bar(int x);\nvoid bar(int x) " ++ lbS ++ " return; " ++
          rbS).data) ("bar").data).text = ("void bar(int x);").data :=
  ⟨rfl, rfl⟩

/-- A not-removed result of the cut epilogue carries the original source. -/
theorem finishCut_text_of_not_removed (src norm : List Char) (s : Nat)
    (sc : ScanOut) (h : (finishCut src norm s sc).removed = false) :
    (finishCut src norm s sc).text = src := by
  cases sc with
  | ok e => simp [finishCut] at h
  | unbalanced d => rfl

/-- C9.  Whenever the removal fails — name not found, no opening brace,
only a prototype, or unbalanced braces — the returned text is the original
input, byte for byte, not the CRLF-normalized working copy. -/
theorem C9_failure_returns_original (src func : List Char) :
    (remove_function_from_c_source src func).removed = false →
      (remove_function_from_c_source src func).text = src := by
  simp only [remove_function_from_c_source]
  split
  · exact fun h => finishCut_text_of_not_removed _ _ _ _ h
  · split
    · exact fun _ => rfl
    · split
      · exact fun _ => rfl
      · split
        · split
          · exact fun _ => rfl
          · split
            · exact fun _ => rfl
            · exact fun h => finishCut_text_of_not_removed _ _ _ _ h
        · exact fun h => finishCut_text_of_not_removed _ _ _ _ h

/-- C9 witness: on a source not containing the name at all the removal
fails and hands back the input unchanged. -/
theorem C9_witness :
    (remove_function_from_c_source ("int x;").data ("foo").data).text =
      ("int x;").data :=
  C9_failure_returns_original ("int x;").data ("foo").data rfl

/-- A successful brace scan ends strictly beyond its start position and
within the scanned suffix. -/
theorem scanBraces_ok_bounds :
    ∀ (cs : List Char) (i : Nat) (st : LexSt) (e : Nat),
      scanBraces cs i st = ScanOut.ok e → i < e ∧ e ≤ i + cs.length := by
  intro cs i st
  induction cs, i, st using scanBraces.induct with
  | case1 x st =>
    intro e he
    rw [scanBraces] at he
    simp at he
  | case2 c rest i st out hfin =>
    intro e he
    rw [scanBraces.eq_def] at he
    simp only [if_pos hfin] at he
    cases he
    simp only [List.length_cons]
    omega
  | case3 c i st q r2 out hfin hcons ih =>
    intro e he
    rw [scanBraces.eq_def] at he
    simp only [if_neg hfin, if_pos hcons] at he
    have := ih e he
    simp only [List.length_cons]
    omega
  | case4 c i st out hfin hcons =>
    intro e he
    rw [scanBraces.eq_def] at he
    simp only [if_neg hfin, if_pos hcons] at he
    simp at he
  | case5 c rest i st out hfin hcons ih =>
    intro e he
    rw [scanBraces.eq_def] at he
    simp only [if_neg hfin, if_neg hcons] at he
    have := ih e he
    simp only [List.length_cons]
    omega

/-- A successful signature-tail match ends strictly beyond the name
position and within the text. -/
theorem sigAfterName_bounds {text : List Char} {j e : Nat}
    (h : sigAfterName text j = some e) : j < e ∧ e ≤ text.length := by
  simp only [sigAfterName] at h
  split at h
  case h_2 => simp at h
  case h_1 c t3 heq1 =>
    split at h
    case isFalse => simp at h
    case isTrue hc =>
      split at h
      case h_2 => simp at h
      case h_1 c2 t4 heq2 =>
        split at h
        case isFalse => simp at h
        case isTrue hc2 =>
          split at h
          case h_2 => simp at h
          case h_1 c3 t5 heq3 =>
            split at h
            case isFalse => simp at h
            case isTrue hc3 =>
              injection h with h
              subst h
              have e1 := congrArg List.length heq1
              have e2 := congrArg List.length heq2
              have e3 := congrArg List.length heq3
              simp only [List.length_drop, List.length_cons] at e1 e2 e3
              omega

/-- A successful body match of the removal regex ends strictly beyond the
current position and within the text. -/
theorem tryBodyFrom_bounds {text func : List Char} :
    ∀ (s : List Char) (pos e : Nat),
      tryBodyFrom text func s pos = some e → pos < e ∧ e ≤ text.length := by
  intro s
  induction s with
  | nil =>
    intro pos e h
    rw [tryBodyFrom] at h
    split at h
    · have := sigAfterName_bounds h
      omega
    · simp at h
  | cons c rest ih =>
    intro pos e h
    rw [tryBodyFrom] at h
    split at h
    case h_1 e' heq =>
      injection h with h
      subst h
      split at heq
      · have := sigAfterName_bounds heq
        omega
      · simp at heq
    case h_2 =>
      split at h
      · have := ih (pos + 1) e h
        omega
      · simp at h

/-- A successful regex attempt at a start position ends strictly beyond it
and within the text. -/
theorem regexMatchAt_bounds {text func : List Char} {p e : Nat}
    (h : regexMatchAt text func p = some e) : p < e ∧ e ≤ text.length := by
  rw [regexMatchAt] at h
  split at h
  case h_1 e' heq =>
    injection h with h
    subst h
    split at heq
    · have := tryBodyFrom_bounds _ _ _ heq
      omega
    · simp at heq
  case h_2 =>
    split at h
    · have := tryBodyFrom_bounds _ _ _ h
      omega
    · simp at h

/-- A match found by the regex search has its end strictly beyond its start
and within the text. -/
theorem regexSearchGo_bounds {text func : List Char} :
    ∀ (fuel p s e : Nat), regexSearchGo text func fuel p = some (s, e) →
      s < e ∧ e ≤ text.length := by
  intro fuel
  induction fuel with
  | zero => intro p s e h; simp [regexSearchGo] at h
  | succ f ih =>
    intro p s e h
    rw [regexSearchGo] at h
    split at h
    · split at h
      case h_1 e' heq =>
        injection h with h
        obtain ⟨rfl, rfl⟩ := Prod.mk.injEq _ _ _ _ ▸ And.intro
          (congrArg Prod.fst h) (congrArg Prod.snd h)
        exact regexMatchAt_bounds heq
      case h_2 => exact ih _ _ _ h
    · simp at h

/-- A found substring occurrence lies at or after the start position and
fits inside the text. -/
theorem findSubGo_bounds {pat cs : List Char} :
    ∀ (fuel p i : Nat), findSubGo pat cs fuel p = some i →
      p ≤ i ∧ i + pat.length ≤ cs.length := by
  intro fuel
  induction fuel with
  | zero => intro p i h; simp [findSubGo] at h
  | succ f ih =>
    intro p i h
    rw [findSubGo] at h
    split at h
    case isTrue hfit =>
      split at h
      · injection h with h
        subst h
        omega
      · have := ih _ _ h
        omega
    case isFalse => simp at h

/-- The signature back-scan only moves the start leftwards: its result is
bounded by the larger of its two arguments. -/
theorem backScan_le (text : List Char) :
    ∀ (cp s : Nat), backScan text cp s ≤ max cp s := by
  intro cp s
  induction cp, s using backScan.induct text with
  | case1 cp s hpos prev pline hgood ih =>
    rw [backScan, dif_pos hpos, if_pos hgood]
    refine ih.trans ?_
    simp only [max_self]
    have hprev : prev ≤ cp := by
      have hdef : prev = (match rfindChar text '\n' (cp - 1) with
        | some j => j + 1
        | none => 0) := rfl
      rw [hdef]
      cases hr : rfindChar text '\n' (cp - 1) with
      | some j =>
        exact (Nat.succ_le_of_lt (rfindChar_lt hr)).trans (Nat.sub_le cp 1)
      | none => exact Nat.zero_le cp
    exact hprev.trans (le_max_left _ _)
  | case2 cp s hpos prev pline hbad =>
    rw [backScan, dif_pos hpos, if_neg hbad]
    exact le_max_right _ _
  | case3 cp s hpos =>
    rw [backScan, dif_neg hpos]
    exact le_max_right _ _

/-- A successful cut splices the normalized buffer around a well-formed
span: the surviving text is a prefix and a suffix of that buffer. -/
theorem finishCut_frame {src norm : List Char} {s : Nat} {sc : ScanOut}
    (hb : ∀ e, sc = ScanOut.ok e → s < e ∧ e ≤ norm.length)
    (hr : (finishCut src norm s sc).removed = true) :
    ∃ a b, a ≤ b ∧ b ≤ norm.length ∧
      (finishCut src norm s sc).text = norm.take a ++ norm.drop b := by
  cases sc with
  | unbalanced d => simp [finishCut] at hr
  | ok e =>
    obtain ⟨h1, h2⟩ := hb e rfl
    refine ⟨if 0 < s ∧ norm[s - 1]? = some '\n' then s - 1 else s,
      if e < norm.length ∧ norm[e]? = some '\n' then e + 1 else e,
      ?_, ?_, rfl⟩
    · split_ifs <;> omega
    · split_ifs <;> omega

/-- C10.  On every successful removal the returned text is a prefix plus a
suffix of the CRLF-normalized input buffer — never of the raw input — so
every CRLF sequence of the input, however far from the excised span, comes
back as a bare LF while the rest of the normalized buffer is preserved
verbatim around one removed span.  The concrete conjunct shows a CRLF
after the removed function being rewritten. -/
theorem C10_success_cuts_normalized :
    (∀ (src func : List Char),
        (remove_function_from_c_source src func).removed = true →
        ∃ a b, a ≤ b ∧ b ≤ (normalizeCRLF src).length ∧
          (remove_function_from_c_source src func).text =
            (normalizeCRLF src).take a ++ (normalizeCRLF src).drop b) ∧
    (remove_function_from_c_source
        (("int a;" ++ "\x0d\n" ++ "void f() " ++ lbS ++ " " ++ rbS ++
          "\nint b;" ++ "\x0d\n").data) ("f").data).text =
      ("int a;int b;\n").data := by
  constructor
  · intro src func h
    simp only [remove_function_from_c_source] at h ⊢
    cases hsearch : regexFuncDefSearch (normalizeCRLF src) func with
    | some pr =>
      obtain ⟨s, e⟩ := pr
      rw [hsearch] at h
      dsimp only at h ⊢
      refine finishCut_frame ?_ h
      intro be hbe
      have hse : s < e ∧ e ≤ (normalizeCRLF src).length :=
        regexSearchGo_bounds _ _ _ _ hsearch
      have hsc := scanBraces_ok_bounds _ _ _ _ hbe
      rw [List.length_drop] at hsc
      omega
    | none =>
      rw [hsearch] at h
      dsimp only at h ⊢
      cases hf1 : findSub (normalizeCRLF src) (func ++ ['(']) 0 with
      | none =>
        rw [hf1] at h
        simp at h
      | some name_idx =>
        rw [hf1] at h
        dsimp only at h ⊢
        have hn1 : name_idx + (func ++ ['(']).length ≤
            (normalizeCRLF src).length := (findSubGo_bounds _ _ _ hf1).2
        cases hb0 : findSub (normalizeCRLF src) [lbrace] name_idx with
        | none =>
          rw [hb0] at h
          simp at h
        | some brace0 =>
          rw [hb0] at h
          dsimp only at h ⊢
          have hbr0 := findSubGo_bounds _ _ _ hb0
          by_cases hretry : (match findSub (normalizeCRLF src) [';'] name_idx
              with
            | some semi => decide (semi < brace0)
            | none => false) = true
          · rw [if_pos hretry] at h ⊢
            cases hf2 : findSub (normalizeCRLF src) (func ++ ['('])
                (name_idx + 1) with
            | none =>
              rw [hf2] at h
              simp at h
            | some n2 =>
              rw [hf2] at h
              dsimp only at h ⊢
              cases hb2 : findSub (normalizeCRLF src) [lbrace] n2 with
              | none =>
                rw [hb2] at h
                simp at h
              | some b2 =>
                rw [hb2] at h
                dsimp only at h ⊢
                have hbr2 := findSubGo_bounds _ _ _ hb2
                refine finishCut_frame ?_ h
                intro be hbe
                have hsc := scanBraces_ok_bounds _ _ _ _ hbe
                rw [List.length_drop] at hsc
                have hsig : (match rfindChar (normalizeCRLF src) '\n' n2 with
                    | some j => j + 1
                    | none => 0) ≤ n2 := by
                  cases hr : rfindChar (normalizeCRLF src) '\n' n2 with
                  | some j => exact Nat.succ_le_of_lt (rfindChar_lt hr)
                  | none => exact Nat.zero_le _
                have hback := backScan_le (normalizeCRLF src)
                  ((match rfindChar (normalizeCRLF src) '\n' n2 with
                    | some j => j + 1
                    | none => 0) - 1)
                  (match rfindChar (normalizeCRLF src) '\n' n2 with
                    | some j => j + 1
                    | none => 0)
                simp only [List.length_singleton] at hbr2
                constructor
                · have : max ((match rfindChar (normalizeCRLF src) '\n' n2 with
                      | some j => j + 1
                      | none => 0) - 1)
                      (match rfindChar (normalizeCRLF src) '\n' n2 with
                      | some j => j + 1
                      | none => 0) ≤ n2 := by
                    apply max_le <;> omega
                  omega
                · omega
          · rw [if_neg hretry] at h ⊢
            refine finishCut_frame ?_ h
            intro be hbe
            have hsc := scanBraces_ok_bounds _ _ _ _ hbe
            rw [List.length_drop] at hsc
            have hsig : (match rfindChar (normalizeCRLF src) '\n' name_idx with
                | some j => j + 1
                | none => 0) ≤ name_idx := by
              cases hr : rfindChar (normalizeCRLF src) '\n' name_idx with
              | some j => exact Nat.succ_le_of_lt (rfindChar_lt hr)
              | none => exact Nat.zero_le _
            have hback := backScan_le (normalizeCRLF src)
              ((match rfindChar (normalizeCRLF src) '\n' name_idx with
                | some j => j + 1
                | none => 0) - 1)
              (match rfindChar (normalizeCRLF src) '\n' name_idx with
                | some j => j + 1
                | none => 0)
            simp only [List.length_singleton] at hbr0
            constructor
            · have : max ((match rfindChar (normalizeCRLF src) '\n' name_idx
                    with
                  | some j => j + 1
                  | none => 0) - 1)
                  (match rfindChar (normalizeCRLF src) '\n' name_idx with
                  | some j => j + 1
                  | none => 0) ≤ name_idx := by
                apply max_le <;> omega
              omega
            · omega
  · rfl

/-- C10 witness: the frame statement applied to the concrete CRLF input. -/
theorem C10_witness :
    ∃ a b, a ≤ b ∧
      b ≤ (normalizeCRLF (("int a;" ++ "\x0d\n" ++ "void f() " ++ lbS ++ " "
        ++ rbS ++ "\nint b;" ++ "\x0d\n").data)).length ∧
      (remove_function_from_c_source
          (("int a;" ++ "\x0d\n" ++ "void f() " ++ lbS ++ " " ++ rbS ++
            "\nint b;" ++ "\x0d\n").data) ("f").data).text =
        (normalizeCRLF (("int a;" ++ "\x0d\n" ++ "void f() " ++ lbS ++ " " ++
          rbS ++ "\nint b;" ++ "\x0d\n").data)).take a ++
        (normalizeCRLF (("int a;" ++ "\x0d\n" ++ "void f() " ++ lbS ++ " " ++
          rbS ++ "\nint b;" ++ "\x0d\n").data)).drop b :=
  C10_success_cuts_normalized.1 _ _ (by rfl)
